import Mathlib

/-!
Verification development for the TISS validation rule engine.

This file gives a shallow embedding of the rule engine
(`src/lib/rules/rule-engine.ts`), the field-extraction helpers used by the
business rules (`business-rules.ts`, `complementary-rules.ts` and the
anti-glosa rules file), and the two concrete rules the claims mention
(`LimiteLoteRule`, `DuplicidadeGuiaRule`), together with theorems settling
the frozen claims about them.

Modelling conventions:
* the parsed XML document is a `JsValue` tree (objects are ordered key/value
  association lists, mirroring JavaScript property-insertion order);
* a rule's `validate` may throw (promise rejection) or resolve to a
  non-array value, so it is modelled as
  `ValidationContext → Except Unit (Option (List ValidationError))`
  (`Except.error` = throw/reject, `Except.ok none` = resolved to a
  non-array value, `Except.ok (some l)` = resolved to the array `l`);
* `appliesTo` may throw, so it is `ValidationContext → Except Unit Bool`;
* wall-clock time (`performance.now()`) is modelled by an oracle
  `elapsed : Nat → Nat` giving the elapsed milliseconds at the i-th
  between-rules timeout check; the engine's observable behaviour is a
  deterministic function of that oracle;
* `crypto.randomUUID()` is modelled by a fixed string: no claim depends on
  the per-occurrence identity of a finding.
-/

/-- A parsed-XML tree value, as the untyped JavaScript value the engine's
rules traverse: strings, numbers, booleans, null/undefined, arrays and
objects (ordered association lists of fields). -/
inductive JsValue where
  | str (s : String)
  | num (n : Int)
  | boolean (b : Bool)
  | null
  | undef
  | arr (items : List JsValue)
  | obj (fields : List (String × JsValue))

/-- ASCII lower-casing of one character, as `String.prototype.toLowerCase`
acts on the ASCII keys appearing in TISS documents. -/
def lowerChar (c : Char) : Char :=
  if c.toNat ≥ 65 ∧ c.toNat ≤ 90 then Char.ofNat (c.toNat + 32) else c

/-- Lower-case a whole string (JS `toLowerCase`, ASCII fragment). -/
def toLowerStr (s : String) : String :=
  String.mk (s.data.map lowerChar)

/-- JS `String.prototype.trim`: drop whitespace from both ends. -/
def trimStr (s : String) : String :=
  String.mk (((s.data.dropWhile Char.isWhitespace).reverse.dropWhile
    Char.isWhitespace).reverse)

/-- Does `pat` occur at the head of `l`? (helper for substring search). -/
def headMatches : List Char → List Char → Bool
  | [], _ => true
  | _ :: _, [] => false
  | a :: as, b :: bs => a == b && headMatches as bs

/-- Does the character sequence `needle` occur inside `hay`? -/
def seqContains (needle : List Char) : List Char → Bool
  | [] => needle.isEmpty
  | c :: rest => headMatches needle (c :: rest) || seqContains needle rest

/-- JS `String.prototype.includes`: substring containment. -/
def strIncludes (s pat : String) : Bool :=
  seqContains pat.data s.data

/-- JS `key.replace(/^[^:]+:/, '')`: strip a namespace qualifier (the text
up to and including the first colon), provided at least one non-colon
character precedes that colon. -/
def stripNs (key : String) : String :=
  let pre := key.data.takeWhile (fun c => !(c == ':'))
  if pre.length ≠ 0 ∧ pre.length < key.data.length then
    String.mk (key.data.drop (pre.length + 1))
  else key

/-- The cleaned form of an object key used for field matching: namespace
qualifier stripped, then lower-cased (`business-rules.ts` line 34 and the
identical helper in `complementary-rules.ts` / the anti-glosa rules file). -/
def cleanKeyStr (key : String) : String :=
  toLowerStr (stripNs key)

/-- Insertion-ordered de-duplication with an accumulator of already-seen
values: the semantics of JS `[...new Set(values)]` (first occurrence of
each value is kept, in order). -/
def jsSetDedupAux (seen : List String) : List String → List String
  | [] => []
  | x :: xs =>
    if seen.contains x then jsSetDedupAux seen xs
    else x :: jsSetDedupAux (x :: seen) xs

/-- JS `[...new Set(values)]`. -/
def jsSetDedup (values : List String) : List String :=
  jsSetDedupAux [] values

mutual
/-- The `traverse` closure of the `extractFieldValues` helper shared by
`complementary-rules.ts` and the anti-glosa rules file (both contain the
identical function): walk the tree; at an object node, push the trimmed
string value (if nonempty after trimming) or the stringified numeric value
of every field whose cleaned key contains the search term, and recurse into
every object/array field value. -/
def traverseShared (searchTerm : String) : JsValue → List String
  | .arr items => traverseSharedList searchTerm items
  | .obj fields => traverseSharedFields searchTerm fields
  | _ => []

/-- Array case of `traverseShared`: visit the elements in order. -/
def traverseSharedList (searchTerm : String) : List JsValue → List String
  | [] => []
  | v :: vs => traverseShared searchTerm v ++ traverseSharedList searchTerm vs

/-- Object case of `traverseShared`: for each field in insertion order,
first the values pushed by the key-match test, then the values found by
the unconditional recursion into object/array field values. -/
def traverseSharedFields (searchTerm : String) :
    List (String × JsValue) → List String
  | [] => []
  | (key, value) :: rest =>
    (if strIncludes (cleanKeyStr key) searchTerm then
      match value with
      | .str s => if trimStr s = "" then [] else [trimStr s]
      | .num n => [toString n]
      | _ => []
    else []) ++
    (match value with
     | .obj _ => traverseShared searchTerm value
     | .arr _ => traverseShared searchTerm value
     | _ => []) ++
    traverseSharedFields searchTerm rest
end

/-- `extractFieldValues` as defined (identically) in
`complementary-rules.ts` and in the anti-glosa rules file: collect all
values under keys whose cleaned form contains the lower-cased field name,
then remove duplicates with JS `Set` semantics. -/
def extractFieldValues (obj : JsValue) (fieldName : String) : List String :=
  jsSetDedup (traverseShared (toLowerStr fieldName) obj)

/-- JS `String.prototype.padStart(n, '0')`. -/
def padStartZeros (s : String) (n : Nat) : String :=
  String.mk (List.replicate (n - s.length) '0') ++ s

namespace BusinessRules

/-- The numeric-value normalisation of `business-rules.ts` lines 50-68:
stringify, then left-pad with zeros when the cleaned key names an
identifier document (11 digits for a key containing "cpf", 14 for "cnpj",
15 for "cns") and the plain representation is shorter than that length. -/
def padNum (cleanKey : String) (n : Int) : String :=
  let strValue := toString n
  if strIncludes cleanKey "cpf" ∧ strValue.length < 11 then
    padStartZeros strValue 11
  else if strIncludes cleanKey "cnpj" ∧ strValue.length < 14 then
    padStartZeros strValue 14
  else if strIncludes cleanKey "cns" ∧ strValue.length < 15 then
    padStartZeros strValue 15
  else strValue

/-- Lookup of the `#text` field of an object value (the XML parser's
text-node wrapper), as JS `value['#text']`. -/
def textField (fields : List (String × JsValue)) : Option JsValue :=
  (fields.find? (fun p => p.1 == "#text")).map Prod.snd

mutual
/-- The `traverse` closure of `extractFieldValues` in `business-rules.ts`
(lines 21-90): like the shared helper, but numeric values are zero-padded
for identifier keys, a matched object value carrying a `#text` field is
unwrapped instead of recursed into, and recursion into a field value
happens either through the matched-object branch or, for non-matching
keys, through the depth-first else branch. -/
def traverseBiz (searchTerm : String) : JsValue → List String
  | .arr items => traverseBizList searchTerm items
  | .obj fields => traverseBizFields searchTerm fields
  | _ => []

/-- Array case of `traverseBiz`. -/
def traverseBizList (searchTerm : String) : List JsValue → List String
  | [] => []
  | v :: vs => traverseBiz searchTerm v ++ traverseBizList searchTerm vs

/-- Object case of `traverseBiz`, following the if/else-if cascade of the
source: string → trimmed push; number → padded push; object with `#text`
→ unwrap; other object/array → recurse; non-matching keys recurse into
object/array values only. -/
def traverseBizFields (searchTerm : String) :
    List (String × JsValue) → List String
  | [] => []
  | (key, value) :: rest =>
    (if strIncludes (cleanKeyStr key) searchTerm then
      match value with
      | .str s => if trimStr s = "" then [] else [trimStr s]
      | .num n => [padNum (cleanKeyStr key) n]
      | .obj fields =>
        match textField fields with
        | some (.str t) => if trimStr t = "" then [] else [trimStr t]
        | some _ => []
        | none => traverseBiz searchTerm (.obj fields)
      | .arr items => traverseBiz searchTerm (.arr items)
      | _ => []
    else
      match value with
      | .obj _ => traverseBiz searchTerm value
      | .arr _ => traverseBiz searchTerm value
      | _ => []) ++
    traverseBizFields searchTerm rest
end

/-- `extractFieldValues` of `business-rules.ts` (lines 13-97). -/
def extractFieldValues (obj : JsValue) (fieldName : String) : List String :=
  jsSetDedup (traverseBiz (toLowerStr fieldName) obj)

end BusinessRules

/-- The finding severity enumeration of `types/tiss.ts`. -/
inductive Severity where
  | error
  | warning
  | info
deriving DecidableEq, Repr

/-- The `ValidationError` record of `types/tiss.ts`: one finding emitted by
a rule. -/
structure ValidationError where
  id : String
  line : Nat
  column : Nat
  message : String
  code : Option String
  severity : Severity
  field : Option String
  suggestion : Option String
deriving DecidableEq, Repr

/-- The closed document-type enumeration `GuiaType` of `types/tiss.ts`. -/
inductive GuiaType where
  | tissGuiaSP_SADT
  | tissGuiaConsulta
  | tissGuiaHonorarioIndividual
  | tissGuiaInternacao
  | tissGuiaOdontologia
  | tissLoteGuias
  | unknown
deriving DecidableEq, Repr

/-- The `ValidationContext` passed to every rule: raw text, parsed tree and
detected document type (the optional pre-extracted metadata bundle is not
consulted by any definition the claims mention and is modelled as an
association list). -/
structure ValidationContext where
  xmlContent : String
  parsedXml : JsValue
  guiaType : GuiaType
  metadata : Option (List (String × String))

/-- Placeholder for `crypto.randomUUID()`: findings get a fresh random id
per occurrence; no claim depends on its value, so it is modelled as a
fixed string. -/
def cryptoRandomUUID : String :=
  "00000000-0000-4000-8000-000000000000"

namespace LimiteLoteRule

/-- Rule metadata: `id = 'limite-lote'`, priority 230, always applicable. -/
def ruleId : String := "limite-lote"

/-- `LimiteLoteRule.validate` (`complementary-rules.ts` lines 161-192):
count the distinct guide numbers found under `numeroguia`-matching keys;
above 300 emit one `LOTE001` error, above 250 (and at most 300) emit one
`LOTE002` warning, otherwise emit nothing. -/
def validate (context : ValidationContext) : List ValidationError :=
  let guias := extractFieldValues context.parsedXml "numeroguia"
  let count := guias.length
  if count > 300 then
    [{ id := cryptoRandomUUID, line := 0, column := 0,
       message := "Lote excede o limite: " ++ toString count ++
         " guias (máximo 300)",
       code := some "LOTE001", severity := Severity.error,
       field := some "loteGuias",
       suggestion := some "Divida em múltiplos lotes de até 300 guias cada" }]
  else if count > 250 then
    [{ id := cryptoRandomUUID, line := 0, column := 0,
       message := "Atenção: " ++ toString count ++
         " guias, próximo ao limite de 300",
       code := some "LOTE002", severity := Severity.warning,
       field := some "loteGuias",
       suggestion := some "Considere dividir o lote para evitar problemas" }]
  else []

end LimiteLoteRule

namespace DuplicidadeGuiaRule

/-- Rule metadata: `id = 'duplicidade-guia'`, priority 105, always
applicable. -/
def ruleId : String := "duplicidade-guia"

/-- The running-count duplicate collection of `DuplicidadeGuiaRule.validate`
(anti-glosa rules file, lines 153-161): walk the values keeping the list of
already-processed occurrences; a value whose running count reaches two is
emitted (possibly repeatedly; the surrounding `Set` de-duplicates). -/
def duplicadosAux : List String → List String → List String
  | [], _ => []
  | n :: rest, processed =>
    let processed' := processed ++ [n]
    if 2 ≤ processed'.count n then n :: duplicadosAux rest processed'
    else duplicadosAux rest processed'

/-- The contents of the `duplicados` set after the counting loop, in
insertion order. -/
def duplicadosOf (nums : List String) : List String :=
  jsSetDedup (duplicadosAux nums [])

/-- `DuplicidadeGuiaRule.validate` (anti-glosa rules file, lines 144-177):
extract all guide numbers, count occurrences, and emit one `DUPL001` error
per member of the duplicate set. -/
def validate (context : ValidationContext) : List ValidationError :=
  let numerosGuia := extractFieldValues context.parsedXml "numeroguia"
  if numerosGuia.length < 2 then []
  else
    (duplicadosOf numerosGuia).map (fun num =>
      { id := cryptoRandomUUID, line := 0, column := 0,
        message := "Número de guia duplicado no lote: " ++ num,
        code := some "DUPL001", severity := Severity.error,
        field := some "numeroGuia",
        suggestion := some ("Números de guia devem ser únicos dentro do " ++
          "mesmo lote. Remova ou renomeie a duplicata.") })

end DuplicidadeGuiaRule

/-- The `ValidationRule` contract of `rule-types.ts`: identity, priority,
enablement, an applicability predicate (which may throw) and a validation
function (which may throw/reject, or resolve to a non-array value). -/
structure ValidationRule where
  id : String
  name : String
  description : String
  priority : Int
  enabled : Bool
  appliesTo : ValidationContext → Except Unit Bool
  validate : ValidationContext → Except Unit (Option (List ValidationError))

/-- The `RuleEngineOptions` record of `rule-types.ts`. A `timeoutMs` of
`some 0` is falsy in the source's `options.timeoutMs && …` guard and means
"no limit", like `none`. -/
structure RuleEngineOptions where
  stopOnFirstError : Bool
  timeoutMs : Option Nat
  parallel : Bool

/-- The default options (`options = {}` in the source). -/
def RuleEngineOptions.empty : RuleEngineOptions :=
  { stopOnFirstError := false, timeoutMs := none, parallel := false }

/-- The `RuleEngineResult` record: findings bucketed by severity plus
diagnostics about which rules ran. -/
structure RuleEngineResult where
  errors : List ValidationError
  warnings : List ValidationError
  executedRules : List String
  skippedRules : List String
  executionTime : Nat

/-- The rule engine's state: the `Map` from rule id to rule, modelled as an
insertion-ordered association list. -/
structure RuleEngine where
  rules : List (String × ValidationRule)

/-- Well-formedness of the engine's `Map`: keys are distinct (a JS `Map`
invariant) and every entry is keyed by its rule's own id (`register` always
uses `rule.id` as the key). -/
def RuleEngine.WF (e : RuleEngine) : Prop :=
  (e.rules.map Prod.fst).Nodup ∧ ∀ p ∈ e.rules, p.2.id = p.1

/-- The priority comparison used by `getAllRules`'s
`sort((a, b) => a.priority - b.priority)`. -/
def priorityLe (a b : ValidationRule) : Bool :=
  decide (a.priority ≤ b.priority)

/-- `RuleEngine.getAllRules`: all registered rules, stably sorted ascending
by priority. -/
def getAllRules (e : RuleEngine) : List ValidationRule :=
  (e.rules.map Prod.snd).mergeSort priorityLe

/-- `RuleEngine.getRule`. -/
def getRule (e : RuleEngine) (ruleId : String) : Option ValidationRule :=
  (e.rules.find? (fun p => p.1 == ruleId)).map Prod.snd

/-- `RuleEngine.executeRule` (lines 218-224): await the rule's `validate`;
a resolved non-array value counts as zero findings; a throw propagates to
the caller's try/catch. -/
def executeRule (rule : ValidationRule) (context : ValidationContext) :
    Except Unit (List ValidationError) :=
  match rule.validate context with
  | .error e => .error e
  | .ok (some result) => .ok result
  | .ok none => .ok []

/-- `RuleEngine.categorizeErrors` (lines 232-244): append each finding of
severity exactly `error` to the errors bucket and every other finding to
the warnings bucket. -/
def categorizeErrors (ruleErrors errors warnings : List ValidationError) :
    List ValidationError × List ValidationError :=
  match ruleErrors with
  | [] => (errors, warnings)
  | e :: rest =>
    if e.severity = Severity.error then
      categorizeErrors rest (errors ++ [e]) warnings
    else
      categorizeErrors rest errors (warnings ++ [e])

/-- The applicability-filter loop of `execute` (lines 89-101): partition the
enabled rules into the applicable ones (predicate returned true) and the
ids of the skipped ones (predicate returned false or threw), preserving
order. -/
def applicabilityFilter (context : ValidationContext) :
    List ValidationRule → List ValidationRule × List String
  | [] => ([], [])
  | rule :: rest =>
    let (apps, skips) := applicabilityFilter context rest
    match rule.appliesTo context with
    | .ok true => (rule :: apps, skips)
    | .ok false => (apps, rule.id :: skips)
    | .error _ => (apps, rule.id :: skips)

/-- Mutable bookkeeping of one `execute` pass: the four arrays the source
pushes into. -/
structure ExecAcc where
  errors : List ValidationError
  warnings : List ValidationError
  executedRules : List String
  skippedRules : List String

/-- The timeout guard `options.timeoutMs && (performance.now() - startTime)
> options.timeoutMs` evaluated with elapsed time `now`. -/
def timeoutHit (options : RuleEngineOptions) (now : Nat) : Bool :=
  match options.timeoutMs with
  | none => false
  | some t => if t = 0 then false else decide (now > t)

/-- The sequential execution loop of `execute` (lines 120-143).  Returns the
final bookkeeping state, the trace of rule ids whose `validate` was invoked
(in invocation order; a ghost output used to state ordering claims), and
the concatenation of the findings returned by the successfully executed
rules (a ghost output used to state bucketing claims).  `i` indexes the
between-rules timeout checks into the `elapsed` oracle. -/
def runSequential (context : ValidationContext) (options : RuleEngineOptions)
    (elapsed : Nat → Nat) :
    List ValidationRule → Nat → ExecAcc →
    ExecAcc × List String × List ValidationError
  | [], _, st => (st, [], [])
  | rule :: rest, i, st =>
    match executeRule rule context with
    | .ok ruleErrors =>
      let buckets := categorizeErrors ruleErrors st.errors st.warnings
      let st' : ExecAcc :=
        { errors := buckets.1, warnings := buckets.2,
          executedRules := st.executedRules ++ [rule.id],
          skippedRules := st.skippedRules }
      if options.stopOnFirstError ∧ st'.errors ≠ [] then
        (st', [rule.id], ruleErrors)
      else if timeoutHit options (elapsed i) then
        (st', [rule.id], ruleErrors)
      else
        let next := runSequential context options elapsed rest (i + 1) st'
        (next.1, rule.id :: next.2.1, ruleErrors ++ next.2.2)
    | .error _ =>
      let st' : ExecAcc :=
        { errors := st.errors, warnings := st.warnings,
          executedRules := st.executedRules,
          skippedRules := st.skippedRules ++ [rule.id] }
      let next := runSequential context options elapsed rest (i + 1) st'
      (next.1, rule.id :: next.2.1, next.2.2)

/-- The parallel branch of `execute` (lines 104-119): every applicable
rule's `validate` is launched; the settled outcomes are then folded in
launch order, fulfilled rules being recorded as executed (with their
findings bucketed) and rejected rules as skipped.  The second component is
the ghost concatenation of the findings of the fulfilled rules. -/
def runParallel (context : ValidationContext) :
    List ValidationRule → ExecAcc → ExecAcc × List ValidationError
  | [], st => (st, [])
  | rule :: rest, st =>
    match executeRule rule context with
    | .ok ruleErrors =>
      let buckets := categorizeErrors ruleErrors st.errors st.warnings
      let st' : ExecAcc :=
        { errors := buckets.1, warnings := buckets.2,
          executedRules := st.executedRules ++ [rule.id],
          skippedRules := st.skippedRules }
      let next := runParallel context rest st'
      (next.1, ruleErrors ++ next.2)
    | .error _ =>
      let st' : ExecAcc :=
        { errors := st.errors, warnings := st.warnings,
          executedRules := st.executedRules,
          skippedRules := st.skippedRules ++ [rule.id] }
      let next := runParallel context rest st'
      (next.1, next.2)

/-- The enabled, priority-sorted rules of one pass (line 86). -/
def enabledRulesOf (engine : RuleEngine) : List ValidationRule :=
  (getAllRules engine).filter (fun rule => rule.enabled)

/-- The applicable rules of one pass (lines 89-101, first component). -/
def applicableRulesOf (engine : RuleEngine) (context : ValidationContext) :
    List ValidationRule :=
  (applicabilityFilter context (enabledRulesOf engine)).1

/-- The ids skipped by the applicability filter (lines 89-101, second
component). -/
def applicabilitySkipped (engine : RuleEngine) (context : ValidationContext) :
    List String :=
  (applicabilityFilter context (enabledRulesOf engine)).2

/-- `RuleEngine.execute` (lines 75-154) instrumented with two ghost
outputs: the trace of rule ids whose `validate` was invoked, in invocation
order, and the concatenation of the findings returned by the rules recorded
as executed.  The wall clock is the `elapsed` oracle; the reported
`executionTime` is its value at the final reading. -/
def executeWithTrace (engine : RuleEngine) (context : ValidationContext)
    (options : RuleEngineOptions) (elapsed : Nat → Nat) :
    RuleEngineResult × List String × List ValidationError :=
  let applicableRules := applicableRulesOf engine context
  let st0 : ExecAcc :=
    { errors := [], warnings := [], executedRules := [],
      skippedRules := applicabilitySkipped engine context }
  if options.parallel then
    let outcome := runParallel context applicableRules st0
    ({ errors := outcome.1.errors, warnings := outcome.1.warnings,
       executedRules := outcome.1.executedRules,
       skippedRules := outcome.1.skippedRules,
       executionTime := elapsed applicableRules.length },
     applicableRules.map (fun rule => rule.id), outcome.2)
  else
    let outcome := runSequential context options elapsed applicableRules 0 st0
    ({ errors := outcome.1.errors, warnings := outcome.1.warnings,
       executedRules := outcome.1.executedRules,
       skippedRules := outcome.1.skippedRules,
       executionTime := elapsed applicableRules.length },
     outcome.2.1, outcome.2.2)

/-- `RuleEngine.execute`: the observable result of one pass. -/
def execute (engine : RuleEngine) (context : ValidationContext)
    (options : RuleEngineOptions) (elapsed : Nat → Nat) : RuleEngineResult :=
  (executeWithTrace engine context options elapsed).1

/-- The rule selection of `executeSpecific` (lines 175-178): look each
requested id up in the map, keep the found and enabled ones, sort by
priority. -/
def specificRules (engine : RuleEngine) (ruleIds : List String) :
    List ValidationRule :=
  ((ruleIds.filterMap (fun ruleId => getRule engine ruleId)).filter
    (fun rule => rule.enabled)).mergeSort priorityLe

/-- The execution loop of `executeSpecific` (lines 181-199).  The
`appliesTo` call is outside the per-rule try/catch, so a throwing
applicability predicate propagates and rejects the whole call, which the
`Except` return type records. -/
def runSpecific (context : ValidationContext) (options : RuleEngineOptions) :
    List ValidationRule → ExecAcc → Except Unit ExecAcc
  | [], st => .ok st
  | rule :: rest, st =>
    match rule.appliesTo context with
    | .error e => .error e
    | .ok false =>
      runSpecific context options rest
        { errors := st.errors, warnings := st.warnings,
          executedRules := st.executedRules,
          skippedRules := st.skippedRules ++ [rule.id] }
    | .ok true =>
      match executeRule rule context with
      | .ok ruleErrors =>
        let buckets := categorizeErrors ruleErrors st.errors st.warnings
        let st' : ExecAcc :=
          { errors := buckets.1, warnings := buckets.2,
            executedRules := st.executedRules ++ [rule.id],
            skippedRules := st.skippedRules }
        if options.stopOnFirstError ∧ st'.errors ≠ [] then .ok st'
        else runSpecific context options rest st'
      | .error _ =>
        runSpecific context options rest
          { errors := st.errors, warnings := st.warnings,
            executedRules := st.executedRules,
            skippedRules := st.skippedRules ++ [rule.id] }

/-- `RuleEngine.executeSpecific` (lines 163-210): the same pipeline
restricted to an id allow-list.  Returns `Except.error` when an
applicability predicate throws (the source method's promise rejects). -/
def executeSpecific (engine : RuleEngine) (context : ValidationContext)
    (ruleIds : List String) (options : RuleEngineOptions)
    (elapsed : Nat → Nat) : Except Unit RuleEngineResult :=
  (runSpecific context options (specificRules engine ruleIds)
    { errors := [], warnings := [], executedRules := [],
      skippedRules := [] }).map
    (fun st =>
      { errors := st.errors, warnings := st.warnings,
        executedRules := st.executedRules,
        skippedRules := st.skippedRules,
        executionTime := elapsed (specificRules engine ruleIds).length })

/-- Does the finding have severity exactly `error`? (the bucketing test of
`categorizeErrors`). -/
def isErrSev (e : ValidationError) : Bool :=
  decide (e.severity = Severity.error)

/-- Did the rule's `validate` settle without throwing on this context? -/
def execOk (context : ValidationContext) (rule : ValidationRule) : Bool :=
  match executeRule rule context with
  | .ok _ => true
  | .error _ => false

/-- The findings of a rule that settled without throwing (empty for a
throwing rule). -/
def okFindings (context : ValidationContext) (rule : ValidationRule) :
    List ValidationError :=
  match executeRule rule context with
  | .ok ruleErrors => ruleErrors
  | .error _ => []

/-- A trivial context used by the concrete counterexamples and witnesses. -/
def ctxTrivial : ValidationContext :=
  { xmlContent := "", parsedXml := JsValue.null, guiaType := GuiaType.unknown,
    metadata := none }

/-- A rule whose `appliesTo` throws on every context (its `validate` is
harmless), used to exhibit the `executeSpecific` behaviour. -/
def throwingAppliesRule : ValidationRule :=
  { id := "c4-throw", name := "throwing applicability",
    description := "appliesTo always throws", priority := 100,
    enabled := true,
    appliesTo := fun _ => .error (),
    validate := fun _ => .ok (some []) }

/-- A one-rule engine whose single rule's `appliesTo` throws. -/
def engineC4 : RuleEngine :=
  { rules := [("c4-throw", throwingAppliesRule)] }

/-- A context whose document carries two procedures with the identical
guide number "G-100" — the concrete input of the duplicate-guide scenario. -/
def ctxDuplicated : ValidationContext :=
  { xmlContent := "",
    parsedXml := JsValue.obj [("procedimentos", JsValue.arr
      [JsValue.obj [("numeroGuia", JsValue.str "G-100")],
       JsValue.obj [("numeroGuia", JsValue.str "G-100")]])],
    guiaType := GuiaType.tissLoteGuias, metadata := none }

/-- The i-th distinct guide number of the synthetic lot documents: a string
of `i + 1` letters 'G' (distinct values with easily distinguished lengths). -/
def gstr (i : Nat) : String :=
  String.mk (List.replicate (i + 1) 'G')

/-- One guide entry of the synthetic lot document. -/
def mkGuia (i : Nat) : JsValue :=
  JsValue.obj [("numeroGuia", JsValue.str (gstr i))]

/-- A lot document carrying `n` guides with pairwise distinct
`numeroGuia` values. -/
def loteDoc (n : Nat) : JsValue :=
  JsValue.obj [("lote", JsValue.arr ((List.range n).map mkGuia))]

/-- The validation context of the synthetic `n`-guide lot document. -/
def ctxLote (n : Nat) : ValidationContext :=
  { xmlContent := "", parsedXml := loteDoc n,
    guiaType := GuiaType.tissLoteGuias, metadata := none }

/-- The observable identity of a finding for the threshold claims: its code
and severity. -/
def codeSev (e : ValidationError) : Option String × Severity :=
  (e.code, e.severity)

/-- A concrete error-severity finding used by the witnesses. -/
def errFindingW : ValidationError :=
  { id := "w-err", line := 0, column := 0, message := "boom",
    code := some "W-E", severity := Severity.error, field := none,
    suggestion := none }

/-- A rule that settles with one error finding (priority 10). -/
def ruleW2ok : ValidationRule :=
  { id := "w2-ok", name := "settling rule",
    description := "resolves with one error finding", priority := 10,
    enabled := true, appliesTo := fun _ => .ok true,
    validate := fun _ => .ok (some [errFindingW]) }

/-- A rule whose `validate` throws (priority 20). -/
def ruleW2throw : ValidationRule :=
  { id := "w2-throw", name := "throwing rule",
    description := "validate always rejects", priority := 20,
    enabled := true, appliesTo := fun _ => .ok true,
    validate := fun _ => .error () }

/-- A two-rule engine: one settling rule and one throwing rule. -/
def engineW2 : RuleEngine :=
  { rules := [("w2-ok", ruleW2ok), ("w2-throw", ruleW2throw)] }

/-- A second error finding, for the not-reached rule of the stop witness. -/
def errFindingW5b : ValidationError :=
  { id := "w-err-b", line := 0, column := 0, message := "boom-b",
    code := some "W-E-B", severity := Severity.error, field := none,
    suggestion := none }

/-- Priority-10 rule resolving with one error finding. -/
def ruleW5a : ValidationRule :=
  { id := "w5-a", name := "first error rule",
    description := "errors at priority 10", priority := 10,
    enabled := true, appliesTo := fun _ => .ok true,
    validate := fun _ => .ok (some [errFindingW]) }

/-- Priority-20 rule that would also resolve with an error finding. -/
def ruleW5b : ValidationRule :=
  { id := "w5-b", name := "second error rule",
    description := "errors at priority 20", priority := 20,
    enabled := true, appliesTo := fun _ => .ok true,
    validate := fun _ => .ok (some [errFindingW5b]) }

/-- The two-error-rule engine of the stop-on-first-error scenario. -/
def engineW5 : RuleEngine :=
  { rules := [("w5-a", ruleW5a), ("w5-b", ruleW5b)] }

/-- A rule whose `validate` resolves to a non-array value. -/
def ruleW10 : ValidationRule :=
  { id := "w10", name := "non-array rule",
    description := "resolves to undefined", priority := 5,
    enabled := true, appliesTo := fun _ => .ok true,
    validate := fun _ => .ok none }

/-- A one-rule engine whose rule resolves to a non-array value. -/
def engineW10 : RuleEngine :=
  { rules := [("w10", ruleW10)] }

theorem categorizeErrors_eq (ruleErrors errors warnings :
    List ValidationError) :
    categorizeErrors ruleErrors errors warnings =
      (errors ++ ruleErrors.filter isErrSev,
       warnings ++ ruleErrors.filter (fun e => !isErrSev e)) := by
  induction ruleErrors generalizing errors warnings with
  | nil => simp [categorizeErrors]
  | cons e rest ih =>
    by_cases h : e.severity = Severity.error <;>
      simp [categorizeErrors, h, ih, isErrSev, List.filter_cons]

theorem runSequential_buckets (context : ValidationContext)
    (options : RuleEngineOptions) (elapsed : Nat → Nat) :
    ∀ (rules : List ValidationRule) (i : Nat) (st : ExecAcc),
    (runSequential context options elapsed rules i st).1.errors =
      st.errors ++
        (runSequential context options elapsed rules i st).2.2.filter
          isErrSev ∧
    (runSequential context options elapsed rules i st).1.warnings =
      st.warnings ++
        (runSequential context options elapsed rules i st).2.2.filter
          (fun e => !isErrSev e) := by
  intro rules
  induction rules with
  | nil => intro i st; simp [runSequential]
  | cons rule rest ih =>
    intro i st
    simp only [runSequential]
    cases hex : executeRule rule context with
    | ok ruleErrors =>
      simp only [categorizeErrors_eq]
      by_cases hstop : options.stopOnFirstError ∧
          ¬(st.errors ++ List.filter isErrSev ruleErrors) = []
      · simp [hstop]
      · simp only [hstop, if_false]
        by_cases htime : timeoutHit options (elapsed i) = true
        · simp [htime]
        · simp only [Bool.not_eq_true] at htime
          simp only [htime, if_false]
          have h := ih (i + 1)
            { errors := st.errors ++ List.filter isErrSev ruleErrors,
              warnings := st.warnings ++
                List.filter (fun e => !isErrSev e) ruleErrors,
              executedRules := st.executedRules ++ [rule.id],
              skippedRules := st.skippedRules }
          simp [h.1, h.2, List.filter_append]
    | error err =>
      have h := ih (i + 1)
        { errors := st.errors, warnings := st.warnings,
          executedRules := st.executedRules,
          skippedRules := st.skippedRules ++ [rule.id] }
      simp [h.1, h.2]

theorem runParallel_spec (context : ValidationContext) :
    ∀ (rules : List ValidationRule) (st : ExecAcc),
    (runParallel context rules st).1.errors =
      st.errors ++ (runParallel context rules st).2.filter isErrSev ∧
    (runParallel context rules st).1.warnings =
      st.warnings ++
        (runParallel context rules st).2.filter (fun e => !isErrSev e) ∧
    (runParallel context rules st).1.executedRules =
      st.executedRules ++
        (rules.filter (execOk context)).map (fun rule => rule.id) ∧
    (runParallel context rules st).1.skippedRules =
      st.skippedRules ++
        (rules.filter (fun rule => !execOk context rule)).map
          (fun rule => rule.id) ∧
    (runParallel context rules st).2 =
      (rules.map (okFindings context)).flatten := by
  intro rules
  induction rules with
  | nil => intro st; simp [runParallel]
  | cons rule rest ih =>
    intro st
    simp only [runParallel]
    cases hex : executeRule rule context with
    | ok ruleErrors =>
      simp only [categorizeErrors_eq]
      have h := ih
        { errors := st.errors ++ List.filter isErrSev ruleErrors,
          warnings := st.warnings ++
            List.filter (fun e => !isErrSev e) ruleErrors,
          executedRules := st.executedRules ++ [rule.id],
          skippedRules := st.skippedRules }
      simp [h.1, h.2.1, h.2.2.1, h.2.2.2.1, h.2.2.2.2, List.filter_append,
        List.filter_cons, execOk, okFindings, hex]
    | error err =>
      have h := ih
        { errors := st.errors, warnings := st.warnings,
          executedRules := st.executedRules,
          skippedRules := st.skippedRules ++ [rule.id] }
      simp [h.1, h.2.1, h.2.2.1, h.2.2.2.1, h.2.2.2.2, List.filter_cons,
        execOk, okFindings, hex]

theorem runSequential_noStop (context : ValidationContext)
    (options : RuleEngineOptions) (elapsed : Nat → Nat)
    (hstop : options.stopOnFirstError = false)
    (htime : options.timeoutMs = none) :
    ∀ (rules : List ValidationRule) (i : Nat) (st : ExecAcc),
    (runSequential context options elapsed rules i st).1.executedRules =
      st.executedRules ++
        (rules.filter (execOk context)).map (fun rule => rule.id) ∧
    (runSequential context options elapsed rules i st).1.skippedRules =
      st.skippedRules ++
        (rules.filter (fun rule => !execOk context rule)).map
          (fun rule => rule.id) ∧
    (runSequential context options elapsed rules i st).2.1 =
      rules.map (fun rule => rule.id) ∧
    (runSequential context options elapsed rules i st).2.2 =
      (rules.map (okFindings context)).flatten := by
  intro rules
  induction rules with
  | nil => intro i st; simp [runSequential]
  | cons rule rest ih =>
    intro i st
    simp only [runSequential]
    cases hex : executeRule rule context with
    | ok ruleErrors =>
      simp only [categorizeErrors_eq, hstop, false_and, if_false,
        timeoutHit, htime]
      have h := ih (i + 1)
        { errors := st.errors ++ List.filter isErrSev ruleErrors,
          warnings := st.warnings ++
            List.filter (fun e => !isErrSev e) ruleErrors,
          executedRules := st.executedRules ++ [rule.id],
          skippedRules := st.skippedRules }
      simp [h.1, h.2.1, h.2.2.1, h.2.2.2, List.filter_cons, execOk,
        okFindings, hex]
    | error err =>
      have h := ih (i + 1)
        { errors := st.errors, warnings := st.warnings,
          executedRules := st.executedRules,
          skippedRules := st.skippedRules ++ [rule.id] }
      simp [h.1, h.2.1, h.2.2.1, h.2.2.2, List.filter_cons, execOk,
        okFindings, hex]

theorem runSequential_trace_take (context : ValidationContext)
    (options : RuleEngineOptions) (elapsed : Nat → Nat) :
    ∀ (rules : List ValidationRule) (i : Nat) (st : ExecAcc),
    ∃ k, (runSequential context options elapsed rules i st).2.1 =
      (rules.take k).map (fun rule => rule.id) := by
  intro rules
  induction rules with
  | nil => intro i st; exact ⟨0, by simp [runSequential]⟩
  | cons rule rest ih =>
    intro i st
    simp only [runSequential]
    cases hex : executeRule rule context with
    | ok ruleErrors =>
      by_cases hstop : options.stopOnFirstError = true ∧
          ¬(categorizeErrors ruleErrors st.errors st.warnings).1 = []
      · refine ⟨1, ?_⟩
        simp [hstop]
      · simp only [hstop, if_false]
        by_cases htime : timeoutHit options (elapsed i) = true
        · refine ⟨1, ?_⟩
          simp [htime]
        · simp only [Bool.not_eq_true] at htime
          simp only [htime, if_false]
          obtain ⟨k, hk⟩ := ih (i + 1)
            { errors := (categorizeErrors ruleErrors st.errors st.warnings).1,
              warnings :=
                (categorizeErrors ruleErrors st.errors st.warnings).2,
              executedRules := st.executedRules ++ [rule.id],
              skippedRules := st.skippedRules }
          exact ⟨k + 1, by simp [hk]⟩
    | error err =>
      obtain ⟨k, hk⟩ := ih (i + 1)
        { errors := st.errors, warnings := st.warnings,
          executedRules := st.executedRules,
          skippedRules := st.skippedRules ++ [rule.id] }
      exact ⟨k + 1, by simp [hk]⟩

theorem runSequential_stop (context : ValidationContext)
    (options : RuleEngineOptions) (elapsed : Nat → Nat)
    (hstop : options.stopOnFirstError = true)
    (htime : options.timeoutMs = none)
    (r : ValidationRule)
    (hr : execOk context r = true)
    (hrerr : ¬(okFindings context r).filter isErrSev = []) :
    ∀ (P rest : List ValidationRule) (i : Nat) (st : ExecAcc),
    st.errors = [] →
    (∀ r' ∈ P, (okFindings context r').filter isErrSev = []) →
    runSequential context options elapsed (P ++ r :: rest) i st =
      ({ errors := (okFindings context r).filter isErrSev,
         warnings := st.warnings ++
           (((P.map (okFindings context)).flatten ++
             okFindings context r).filter (fun e => !isErrSev e)),
         executedRules := st.executedRules ++
           (P.filter (execOk context)).map (fun rule => rule.id) ++ [r.id],
         skippedRules := st.skippedRules ++
           (P.filter (fun rule => !execOk context rule)).map
             (fun rule => rule.id) },
       (P ++ [r]).map (fun rule => rule.id),
       (P.map (okFindings context)).flatten ++ okFindings context r) := by
  intro P
  induction P with
  | nil =>
    intro rest i st hst hpre
    simp only [List.nil_append, runSequential]
    cases hex : executeRule r context with
    | ok ruleErrors =>
      have hfound : okFindings context r = ruleErrors := by
        simp [okFindings, hex]
      simp only [categorizeErrors_eq, hstop, hst, hfound] at hrerr ⊢
      simp [hrerr]
    | error err =>
      simp [execOk, hex] at hr
  | cons p P ih =>
    intro rest i st hst hpre
    have hpok : (okFindings context p).filter isErrSev = [] :=
      hpre p (by simp)
    simp only [List.cons_append, runSequential]
    cases hex : executeRule p context with
    | ok ruleErrors =>
      have hfound : okFindings context p = ruleErrors := by
        simp [okFindings, hex]
      rw [hfound] at hpok
      simp only [categorizeErrors_eq, hst, List.nil_append, hpok, hstop]
      simp only [timeoutHit, htime, Bool.false_eq_true, if_false,
        List.append_eq]
      rw [ih rest (i + 1) _ rfl (fun r' hm => hpre r' (by simp [hm]))]
      simp [execOk, hex, List.filter_cons, hfound, hpok, List.filter_append]
    | error err =>
      simp only [List.append_eq]
      rw [ih rest (i + 1)
        { errors := st.errors, warnings := st.warnings,
          executedRules := st.executedRules,
          skippedRules := st.skippedRules ++ [p.id] }
        hst (fun r' hm => hpre r' (by simp [hm]))]
      simp [execOk, okFindings, hex, List.filter_cons]

theorem applicabilityFilter_sublist (context : ValidationContext) :
    ∀ l : List ValidationRule,
    (applicabilityFilter context l).1.Sublist l := by
  intro l
  induction l with
  | nil => simp [applicabilityFilter]
  | cons rule rest ih =>
    simp only [applicabilityFilter]
    cases happ : rule.appliesTo context with
    | ok b =>
      cases b
      · exact ih.cons rule
      · exact ih.cons₂ rule
    | error e => exact ih.cons rule

theorem applicabilityFilter_perm (context : ValidationContext) :
    ∀ l : List ValidationRule,
    ((applicabilityFilter context l).1.map (fun rule => rule.id) ++
      (applicabilityFilter context l).2).Perm
      (l.map (fun rule => rule.id)) := by
  intro l
  induction l with
  | nil => simp [applicabilityFilter]
  | cons rule rest ih =>
    simp only [applicabilityFilter, List.map_cons]
    cases happ : rule.appliesTo context with
    | ok b =>
      cases b
      · exact List.perm_middle.trans (ih.cons rule.id)
      · simpa using ih.cons rule.id
    | error e => exact List.perm_middle.trans (ih.cons rule.id)

theorem applicabilityFilter_mem_error (context : ValidationContext)
    (r : ValidationRule) (err : Unit)
    (happ : r.appliesTo context = .error err) :
    ∀ l : List ValidationRule, r ∈ l →
    r.id ∈ (applicabilityFilter context l).2 := by
  intro l
  induction l with
  | nil => simp
  | cons rule rest ih =>
    intro hm
    simp only [applicabilityFilter]
    rcases List.mem_cons.mp hm with hEq | hTail
    · subst hEq
      rw [happ]
      simp
    · cases h2 : rule.appliesTo context with
      | ok b => cases b <;> simp [ih hTail]
      | error e => simp [ih hTail]

theorem applicabilityFilter_mem_true (context : ValidationContext)
    (r : ValidationRule) (happ : r.appliesTo context = .ok true) :
    ∀ l : List ValidationRule, r ∈ l →
    r ∈ (applicabilityFilter context l).1 := by
  intro l
  induction l with
  | nil => simp
  | cons rule rest ih =>
    intro hm
    simp only [applicabilityFilter]
    rcases List.mem_cons.mp hm with hEq | hTail
    · subst hEq
      rw [happ]
      simp
    · cases h2 : rule.appliesTo context with
      | ok b => cases b <;> simp [ih hTail]
      | error e => simp [ih hTail]

theorem getAllRules_perm (engine : RuleEngine) :
    (getAllRules engine).Perm (engine.rules.map Prod.snd) :=
  List.mergeSort_perm _ _

theorem getAllRules_sorted (engine : RuleEngine) :
    (getAllRules engine).Pairwise (fun a b => priorityLe a b = true) := by
  apply List.sorted_mergeSort
  · intro a b c hab hbc
    simp only [priorityLe, decide_eq_true_eq] at *
    exact le_trans hab hbc
  · intro a b
    simp only [priorityLe]
    rcases Int.le_total a.priority b.priority with h | h <;> simp [h]

theorem enabledRules_ids_nodup (engine : RuleEngine)
    (hwf : engine.WF) :
    ((enabledRulesOf engine).map (fun rule => rule.id)).Nodup := by
  have hvals : (engine.rules.map Prod.snd).map (fun rule => rule.id) =
      engine.rules.map Prod.fst := by
    rw [List.map_map]
    exact List.map_congr_left (fun p hp => hwf.2 p hp)
  have hvnd : ((engine.rules.map Prod.snd).map
      (fun rule => rule.id)).Nodup := by
    rw [hvals]; exact hwf.1
  have hall : ((getAllRules engine).map (fun rule => rule.id)).Nodup :=
    (List.Perm.map (fun rule => rule.id)
      (getAllRules_perm engine)).symm.nodup hvnd
  have hsub : (enabledRulesOf engine).Sublist (getAllRules engine) := by
    unfold enabledRulesOf; exact List.filter_sublist _
  exact List.Sublist.nodup
    (List.Sublist.map (fun rule => rule.id) hsub) hall

theorem applicableRules_ids_nodup (engine : RuleEngine)
    (context : ValidationContext) (hwf : engine.WF) :
    ((applicableRulesOf engine context).map (fun rule => rule.id)).Nodup :=
  ((applicabilityFilter_sublist context _).map _).nodup
    (enabledRules_ids_nodup engine hwf)

theorem applicable_skipped_perm (engine : RuleEngine)
    (context : ValidationContext) :
    ((applicableRulesOf engine context).map (fun rule => rule.id) ++
      applicabilitySkipped engine context).Perm
      ((enabledRulesOf engine).map (fun rule => rule.id)) :=
  applicabilityFilter_perm context _

theorem pass_ids_nodup (engine : RuleEngine) (context : ValidationContext)
    (hwf : engine.WF) :
    ((applicableRulesOf engine context).map (fun rule => rule.id) ++
      applicabilitySkipped engine context).Nodup :=
  (applicable_skipped_perm engine context).symm.nodup
    (enabledRules_ids_nodup engine hwf)

theorem applicableRules_sorted (engine : RuleEngine)
    (context : ValidationContext) :
    (applicableRulesOf engine context).Pairwise
      (fun a b => priorityLe a b = true) := by
  have hsub : (applicableRulesOf engine context).Sublist
      (getAllRules engine) :=
    List.Sublist.trans (applicabilityFilter_sublist context _)
      (List.filter_sublist _)
  exact List.Pairwise.sublist hsub (getAllRules_sorted engine)

theorem pair_sublist {α : Type _} :
    ∀ (l : List α) (i j : Nat) (hj : j < l.length) (hij : i < j),
    [l.get ⟨i, lt_trans hij hj⟩, l.get ⟨j, hj⟩].Sublist l := by
  intro l
  induction l with
  | nil => intro i j hj hij; simp at hj
  | cons a t ih =>
    intro i j hj hij
    cases i with
    | zero =>
      cases j with
      | zero => omega
      | succ j' =>
        simp only [List.get]
        refine List.cons_sublist_cons.mpr ?_
        exact List.singleton_sublist.mpr (List.get_mem t _ _)
    | succ i' =>
      cases j with
      | zero => omega
      | succ j' =>
        simp only [List.get]
        exact (ih i' j' (by simpa using hj) (by omega)).cons a

/-- C1: in every validation pass of `RuleEngine.execute` (both modes, any
options), the findings returned by the executed rules (the ghost third
component of `executeWithTrace`) are bucketed so that a finding lands in
`errors` exactly when its severity is `error` and in `warnings` otherwise,
and `errors ++ warnings` is a permutation of those findings — none dropped,
none duplicated. -/
theorem execute_buckets_by_severity (engine : RuleEngine)
    (context : ValidationContext) (options : RuleEngineOptions)
    (elapsed : Nat → Nat) :
    (executeWithTrace engine context options elapsed).1.errors =
      (executeWithTrace engine context options elapsed).2.2.filter
        isErrSev ∧
    (executeWithTrace engine context options elapsed).1.warnings =
      (executeWithTrace engine context options elapsed).2.2.filter
        (fun e => !isErrSev e) ∧
    ((executeWithTrace engine context options elapsed).1.errors ++
      (executeWithTrace engine context options elapsed).1.warnings).Perm
      (executeWithTrace engine context options elapsed).2.2 ∧
    (∀ e ∈ (executeWithTrace engine context options elapsed).1.errors,
      e.severity = Severity.error) ∧
    (∀ e ∈ (executeWithTrace engine context options elapsed).1.warnings,
      ¬e.severity = Severity.error) := by
  have main :
      (executeWithTrace engine context options elapsed).1.errors =
        (executeWithTrace engine context options elapsed).2.2.filter
          isErrSev ∧
      (executeWithTrace engine context options elapsed).1.warnings =
        (executeWithTrace engine context options elapsed).2.2.filter
          (fun e => !isErrSev e) := by
    cases hp : options.parallel with
    | true =>
      have h := runParallel_spec context
        (applicableRulesOf engine context)
        { errors := [], warnings := [], executedRules := [],
          skippedRules := applicabilitySkipped engine context }
      simp only [executeWithTrace, hp, if_true]
      exact ⟨by simpa using h.1, by simpa using h.2.1⟩
    | false =>
      have h := runSequential_buckets context options elapsed
        (applicableRulesOf engine context) 0
        { errors := [], warnings := [], executedRules := [],
          skippedRules := applicabilitySkipped engine context }
      simp only [executeWithTrace, hp, Bool.false_eq_true, if_false]
      exact ⟨by simpa using h.1, by simpa using h.2⟩
  refine ⟨main.1, main.2, ?_, ?_, ?_⟩
  · rw [main.1, main.2]
    exact List.filter_append_perm _ _
  · intro e he
    rw [main.1] at he
    have := (List.mem_filter.mp he).2
    simpa [isErrSev] using this
  · intro e he
    rw [main.2] at he
    have := (List.mem_filter.mp he).2
    simpa [isErrSev] using this

theorem executeWithTrace_noStop (engine : RuleEngine)
    (context : ValidationContext) (options : RuleEngineOptions)
    (elapsed : Nat → Nat)
    (hstop : options.stopOnFirstError = false)
    (htime : options.timeoutMs = none) :
    (executeWithTrace engine context options elapsed).1.executedRules =
      ((applicableRulesOf engine context).filter (execOk context)).map
        (fun rule => rule.id) ∧
    (executeWithTrace engine context options elapsed).1.skippedRules =
      applicabilitySkipped engine context ++
        ((applicableRulesOf engine context).filter
          (fun rule => !execOk context rule)).map (fun rule => rule.id) ∧
    (executeWithTrace engine context options elapsed).2.2 =
      ((applicableRulesOf engine context).map (okFindings context)).flatten := by
  cases hp : options.parallel with
  | true =>
    have h := runParallel_spec context (applicableRulesOf engine context)
      { errors := [], warnings := [], executedRules := [],
        skippedRules := applicabilitySkipped engine context }
    simp only [executeWithTrace, hp, if_true]
    exact ⟨by simpa using h.2.2.1, by simpa using h.2.2.2.1,
      by simpa using h.2.2.2.2⟩
  | false =>
    have h := runSequential_noStop context options elapsed hstop htime
      (applicableRulesOf engine context) 0
      { errors := [], warnings := [], executedRules := [],
        skippedRules := applicabilitySkipped engine context }
    simp only [executeWithTrace, hp, Bool.false_eq_true, if_false]
    exact ⟨by simpa using h.1, by simpa using h.2.1,
      by simpa using h.2.2.2⟩

theorem executeWithTrace_buckets (engine : RuleEngine)
    (context : ValidationContext) (options : RuleEngineOptions)
    (elapsed : Nat → Nat) :
    (executeWithTrace engine context options elapsed).1.errors =
      (executeWithTrace engine context options elapsed).2.2.filter
        isErrSev ∧
    (executeWithTrace engine context options elapsed).1.warnings =
      (executeWithTrace engine context options elapsed).2.2.filter
        (fun e => !isErrSev e) := by
  cases hp : options.parallel with
  | true =>
    have h := runParallel_spec context (applicableRulesOf engine context)
      { errors := [], warnings := [], executedRules := [],
        skippedRules := applicabilitySkipped engine context }
    simp only [executeWithTrace, hp, if_true]
    exact ⟨by simpa using h.1, by simpa using h.2.1⟩
  | false =>
    have h := runSequential_buckets context options elapsed
      (applicableRulesOf engine context) 0
      { errors := [], warnings := [], executedRules := [],
        skippedRules := applicabilitySkipped engine context }
    simp only [executeWithTrace, hp, Bool.false_eq_true, if_false]
    exact ⟨by simpa using h.1, by simpa using h.2⟩

/-- C2: if an applicable rule's `validate` throws (or rejects) during
`RuleEngine.execute` with no early-exit option set (`stopOnFirstError`
false, no timeout; the parallel flag is arbitrary), every other applicable
rule that settles still executes and its findings reach the result's
buckets; the faulty rule's id lands in `skippedRules` and not in
`executedRules`.  `execute` is total, so the pass always returns a normal
`RuleEngineResult`. -/
theorem execute_fault_isolation (engine : RuleEngine)
    (context : ValidationContext) (options : RuleEngineOptions)
    (elapsed : Nat → Nat) (hwf : engine.WF)
    (hstop : options.stopOnFirstError = false)
    (htime : options.timeoutMs = none)
    (r : ValidationRule) (hr : r ∈ applicableRulesOf engine context)
    (err : Unit) (hthrow : r.validate context = .error err)
    (r' : ValidationRule) (hr' : r' ∈ applicableRulesOf engine context)
    (out' : List ValidationError)
    (hok : executeRule r' context = .ok out') :
    r.id ∈ (execute engine context options elapsed).skippedRules ∧
    r.id ∉ (execute engine context options elapsed).executedRules ∧
    r'.id ∈ (execute engine context options elapsed).executedRules ∧
    (∀ e ∈ out', e.severity = Severity.error →
      e ∈ (execute engine context options elapsed).errors) ∧
    (∀ e ∈ out', ¬e.severity = Severity.error →
      e ∈ (execute engine context options elapsed).warnings) := by
  have hspec := executeWithTrace_noStop engine context options elapsed
    hstop htime
  have hbuck := executeWithTrace_buckets engine context options elapsed
  have hko : execOk context r = false := by
    simp [execOk, executeRule, hthrow]
  have hko' : execOk context r' = true := by
    simp [execOk, hok]
  have hfind' : okFindings context r' = out' := by
    simp [okFindings, hok]
  have hexec : execute engine context options elapsed =
      (executeWithTrace engine context options elapsed).1 := rfl
  refine ⟨?_, ?_, ?_, ?_, ?_⟩
  · rw [hexec, hspec.2.1]
    refine List.mem_append.mpr (Or.inr ?_)
    exact List.mem_map.mpr ⟨r, List.mem_filter.mpr ⟨hr, by simp [hko]⟩, rfl⟩
  · rw [hexec, hspec.1]
    intro hmem
    obtain ⟨x, hx, hxid⟩ := List.mem_map.mp hmem
    have hxA : x ∈ applicableRulesOf engine context :=
      (List.mem_filter.mp hx).1
    have hxok : execOk context x = true := (List.mem_filter.mp hx).2
    have hxr : x = r :=
      List.inj_on_of_nodup_map
        (applicableRules_ids_nodup engine context hwf) hxA hr hxid
    rw [hxr, hko] at hxok
    exact Bool.false_ne_true hxok
  · rw [hexec, hspec.1]
    exact List.mem_map.mpr
      ⟨r', List.mem_filter.mpr ⟨hr', by simp [hko']⟩, rfl⟩
  · intro e he hsev
    have hraw : e ∈ (executeWithTrace engine context options elapsed).2.2 := by
      rw [hspec.2.2]
      exact List.mem_flatten.mpr
        ⟨out', by rw [← hfind']; exact List.mem_map.mpr ⟨r', hr', rfl⟩, he⟩
    rw [hexec, hbuck.1]
    exact List.mem_filter.mpr ⟨hraw, by simp [isErrSev, hsev]⟩
  · intro e he hsev
    have hraw : e ∈ (executeWithTrace engine context options elapsed).2.2 := by
      rw [hspec.2.2]
      exact List.mem_flatten.mpr
        ⟨out', by rw [← hfind']; exact List.mem_map.mpr ⟨r', hr', rfl⟩, he⟩
    rw [hexec, hbuck.2]
    exact List.mem_filter.mpr ⟨hraw, by simp [isErrSev, hsev]⟩

/-- C3: in sequential mode, among the enabled, applicable rules, one with
strictly smaller priority has its `validate` invoked strictly before one
with larger priority: whenever the higher-priority-number rule appears in
the invocation trace of the pass at all, the lower one appears strictly
earlier (`[r1.id, r2.id]` is a sublist of the trace). -/
theorem execute_priority_order (engine : RuleEngine)
    (context : ValidationContext) (options : RuleEngineOptions)
    (elapsed : Nat → Nat) (hwf : engine.WF)
    (hseq : options.parallel = false)
    (r1 r2 : ValidationRule)
    (h1 : r1 ∈ applicableRulesOf engine context)
    (h2 : r2 ∈ applicableRulesOf engine context)
    (hpri : r1.priority < r2.priority)
    (htr : r2.id ∈ (executeWithTrace engine context options elapsed).2.1) :
    [r1.id, r2.id].Sublist
      (executeWithTrace engine context options elapsed).2.1 := by
  have hnd := applicableRules_ids_nodup engine context hwf
  have hsorted := applicableRules_sorted engine context
  obtain ⟨k, hk⟩ : ∃ k,
      (executeWithTrace engine context options elapsed).2.1 =
        ((applicableRulesOf engine context).take k).map
          (fun rule => rule.id) := by
    have h := runSequential_trace_take context options elapsed
      (applicableRulesOf engine context) 0
      { errors := [], warnings := [], executedRules := [],
        skippedRules := applicabilitySkipped engine context }
    simpa only [executeWithTrace, hseq, Bool.false_eq_true, if_false]
      using h
  set A := applicableRulesOf engine context with hA
  rw [hk] at htr ⊢
  obtain ⟨v, hvmem, hvid⟩ := List.mem_map.mp htr
  have hvA : v ∈ A := List.mem_of_mem_take hvmem
  have hvr2 : v = r2 := List.inj_on_of_nodup_map hnd hvA h2 hvid
  subst hvr2
  obtain ⟨j, hjlen, hjget⟩ := List.mem_iff_getElem.mp hvmem
  have hjA : j < A.length := lt_of_lt_of_le hjlen
    (by simp [List.length_take_le k A])
  have hjAget : A[j] = v := by
    simpa [List.getElem_take] using hjget
  obtain ⟨i, hiA, higet⟩ := List.mem_iff_getElem.mp h1
  have hne : r1 ≠ v := by
    intro hEq
    rw [hEq] at hpri
    exact lt_irrefl _ hpri
  have hij : i < j := by
    rcases lt_trichotomy i j with h | h | h
    · exact h
    · exfalso
      apply hne
      rw [← higet, ← hjAget]
      simp [h]
    · exfalso
      have hp := List.pairwise_iff_getElem.mp hsorted j i hjA hiA h
      simp only [priorityLe, decide_eq_true_eq] at hp
      rw [higet, hjAget] at hp
      exact absurd (lt_of_lt_of_le hpri hp) (lt_irrefl _)
  have hjtake : j < (A.take k).length := hjlen
  have hpair := pair_sublist (A.take k) i j hjtake hij
  simp only [List.get_eq_getElem, List.getElem_take] at hpair
  rw [higet, hjAget] at hpair
  have := hpair.map (fun rule => rule.id)
  simpa using this

theorem executeWithTrace_seq_eq (engine : RuleEngine)
    (context : ValidationContext) (options : RuleEngineOptions)
    (elapsed : Nat → Nat) (hseq : options.parallel = false) :
    executeWithTrace engine context options elapsed =
      (let outcome := runSequential context options elapsed
        (applicableRulesOf engine context) 0
        { errors := [], warnings := [], executedRules := [],
          skippedRules := applicabilitySkipped engine context }
       ({ errors := outcome.1.errors, warnings := outcome.1.warnings,
          executedRules := outcome.1.executedRules,
          skippedRules := outcome.1.skippedRules,
          executionTime :=
            elapsed (applicableRulesOf engine context).length },
        outcome.2.1, outcome.2.2)) := by
  simp only [executeWithTrace, hseq, Bool.false_eq_true, if_false]

/-- C5: with `stopOnFirstError` set (sequential mode, no timeout), when the
applicable list splits as `P ++ r :: rest` where no rule of `P` yields an
error-severity finding and `r` settles with at least one error-severity
finding, the pass halts right after `r`: the trace is exactly `P ++ [r]`,
`r`'s error findings are the result's `errors`, and no rule of `rest` is
invoked or mentioned in `executedRules` or `skippedRules`. -/
theorem execute_stop_on_first_error (engine : RuleEngine)
    (context : ValidationContext) (options : RuleEngineOptions)
    (elapsed : Nat → Nat) (hwf : engine.WF)
    (hstop : options.stopOnFirstError = true)
    (htime : options.timeoutMs = none)
    (hseq : options.parallel = false)
    (P rest : List ValidationRule) (r : ValidationRule)
    (hsplit : applicableRulesOf engine context = P ++ r :: rest)
    (hpre : ∀ r' ∈ P, (okFindings context r').filter isErrSev = [])
    (hr : execOk context r = true)
    (hrerr : ¬(okFindings context r).filter isErrSev = []) :
    (executeWithTrace engine context options elapsed).2.1 =
      (P ++ [r]).map (fun rule => rule.id) ∧
    (execute engine context options elapsed).executedRules =
      (P.filter (execOk context)).map (fun rule => rule.id) ++ [r.id] ∧
    (execute engine context options elapsed).skippedRules =
      applicabilitySkipped engine context ++
        (P.filter (fun rule => !execOk context rule)).map
          (fun rule => rule.id) ∧
    (execute engine context options elapsed).errors =
      (okFindings context r).filter isErrSev ∧
    (∀ r'' ∈ rest,
      r''.id ∉ (execute engine context options elapsed).executedRules ∧
      r''.id ∉ (execute engine context options elapsed).skippedRules ∧
      r''.id ∉ (executeWithTrace engine context options elapsed).2.1) := by
  have hrun := runSequential_stop context options elapsed hstop htime r hr
    hrerr P rest 0
    { errors := [], warnings := [], executedRules := [],
      skippedRules := applicabilitySkipped engine context }
    rfl hpre
  rw [← hsplit] at hrun
  have hget := executeWithTrace_seq_eq engine context options elapsed hseq
  have htrace : (executeWithTrace engine context options elapsed).2.1 =
      (P ++ [r]).map (fun rule => rule.id) := by
    rw [hget]
    simp only [hrun]
  have hexecd : (execute engine context options elapsed).executedRules =
      (P.filter (execOk context)).map (fun rule => rule.id) ++ [r.id] := by
    show (executeWithTrace engine context options elapsed).1.executedRules = _
    rw [hget]
    simp only [hrun]
    simp
  have hskip : (execute engine context options elapsed).skippedRules =
      applicabilitySkipped engine context ++
        (P.filter (fun rule => !execOk context rule)).map
          (fun rule => rule.id) := by
    show (executeWithTrace engine context options elapsed).1.skippedRules = _
    rw [hget]
    simp only [hrun]
  have herr : (execute engine context options elapsed).errors =
      (okFindings context r).filter isErrSev := by
    show (executeWithTrace engine context options elapsed).1.errors = _
    rw [hget]
    simp only [hrun]
  refine ⟨htrace, hexecd, hskip, herr, ?_⟩
  intro r'' hmem
  have hnd := pass_ids_nodup engine context hwf
  rw [hsplit] at hnd
  simp only [List.map_append, List.map_cons, List.append_assoc,
    List.cons_append] at hnd
  have hndP := hnd
  rw [List.nodup_append] at hndP
  obtain ⟨hndP1, hndP2, hdisjP⟩ := hndP
  rcases List.nodup_cons.mp hndP2 with ⟨hrid, hndrest⟩
  rw [List.nodup_append] at hndrest
  obtain ⟨hndR, hndS, hdisjRS⟩ := hndrest
  have hidrest : r''.id ∈ rest.map (fun rule => rule.id) :=
    List.mem_map.mpr ⟨r'', hmem, rfl⟩
  have hnotP : r''.id ∉ P.map (fun rule => rule.id) := by
    intro hcon
    exact (hdisjP hcon) (by simp [hidrest])
  have hnotr : ¬r''.id = r.id := by
    intro hcon
    rw [← hcon] at hrid
    exact hrid (by simp [hidrest])
  have hnotS : r''.id ∉ applicabilitySkipped engine context := by
    intro hcon
    exact hdisjRS hidrest hcon
  refine ⟨?_, ?_, ?_⟩
  · rw [hexecd]
    intro hcon
    rcases List.mem_append.mp hcon with hin | hin
    · obtain ⟨x, hx, hxid⟩ := List.mem_map.mp hin
      exact hnotP (List.mem_map.mpr ⟨x, (List.mem_filter.mp hx).1, hxid⟩)
    · exact hnotr (by simpa using hin)
  · rw [hskip]
    intro hcon
    rcases List.mem_append.mp hcon with hin | hin
    · exact hnotS hin
    · obtain ⟨x, hx, hxid⟩ := List.mem_map.mp hin
      exact hnotP (List.mem_map.mpr ⟨x, (List.mem_filter.mp hx).1, hxid⟩)
  · rw [htrace]
    intro hcon
    simp only [List.map_append, List.map_cons, List.map_nil] at hcon
    rcases List.mem_append.mp hcon with hin | hin
    · exact hnotP hin
    · exact hnotr (by simpa using hin)

theorem runSequential_skipped_extends (context : ValidationContext)
    (options : RuleEngineOptions) (elapsed : Nat → Nat) :
    ∀ (rules : List ValidationRule) (i : Nat) (st : ExecAcc),
    ∃ extra,
    (runSequential context options elapsed rules i st).1.skippedRules =
      st.skippedRules ++ extra := by
  intro rules
  induction rules with
  | nil => intro i st; exact ⟨[], by simp [runSequential]⟩
  | cons rule rest ih =>
    intro i st
    simp only [runSequential]
    cases hex : executeRule rule context with
    | ok ruleErrors =>
      by_cases hstop : options.stopOnFirstError = true ∧
          ¬(categorizeErrors ruleErrors st.errors st.warnings).1 = []
      · exact ⟨[], by simp [hstop]⟩
      · simp only [hstop, if_false]
        by_cases htime : timeoutHit options (elapsed i) = true
        · exact ⟨[], by simp [htime]⟩
        · simp only [Bool.not_eq_true] at htime
          simp only [htime, if_false]
          obtain ⟨extra, hextra⟩ := ih (i + 1)
            { errors := (categorizeErrors ruleErrors st.errors st.warnings).1,
              warnings :=
                (categorizeErrors ruleErrors st.errors st.warnings).2,
              executedRules := st.executedRules ++ [rule.id],
              skippedRules := st.skippedRules }
          exact ⟨extra, by simp [hextra]⟩
    | error err =>
      obtain ⟨extra, hextra⟩ := ih (i + 1)
        { errors := st.errors, warnings := st.warnings,
          executedRules := st.executedRules,
          skippedRules := st.skippedRules ++ [rule.id] }
      exact ⟨rule.id :: extra, by simp [hextra]⟩

theorem execute_skipped_extends (engine : RuleEngine)
    (context : ValidationContext) (options : RuleEngineOptions)
    (elapsed : Nat → Nat) :
    ∃ extra,
    (execute engine context options elapsed).skippedRules =
      applicabilitySkipped engine context ++ extra := by
  cases hp : options.parallel with
  | true =>
    have h := runParallel_spec context (applicableRulesOf engine context)
      { errors := [], warnings := [], executedRules := [],
        skippedRules := applicabilitySkipped engine context }
    refine ⟨((applicableRulesOf engine context).filter
      (fun rule => !execOk context rule)).map (fun rule => rule.id), ?_⟩
    show (executeWithTrace engine context options elapsed).1.skippedRules = _
    simp only [executeWithTrace, hp, if_true]
    simpa using h.2.2.2.1
  | false =>
    obtain ⟨extra, hextra⟩ := runSequential_skipped_extends context options
      elapsed (applicableRulesOf engine context) 0
      { errors := [], warnings := [], executedRules := [],
        skippedRules := applicabilitySkipped engine context }
    refine ⟨extra, ?_⟩
    show (executeWithTrace engine context options elapsed).1.skippedRules = _
    simp only [executeWithTrace, hp, Bool.false_eq_true, if_false]
    simpa using hextra

/-- C4 counterexample: in `executeSpecific` the `appliesTo` call sits
outside the per-rule try/catch, so a rule whose applicability predicate
throws does not get recorded as skipped — the whole call rejects instead
of returning a normal result.  This refutes the claim's assertion for
`executeSpecific`. -/
theorem executeSpecific_appliesTo_throw_rejects :
    executeSpecific engineC4 ctxTrivial ["c4-throw"]
      RuleEngineOptions.empty (fun _ => 0) = Except.error () ∧
    ∀ result, ¬executeSpecific engineC4 ctxTrivial ["c4-throw"]
      RuleEngineOptions.empty (fun _ => 0) = Except.ok result := by
  have hsel : specificRules engineC4 ["c4-throw"] = [throwingAppliesRule] := by
    unfold specificRules getRule engineC4
    rw [List.mergeSort_of_sorted]
    · rfl
    · simp [throwingAppliesRule]
  constructor
  · unfold executeSpecific
    rw [hsel]
    rfl
  · intro result hcon
    unfold executeSpecific at hcon
    rw [hsel] at hcon
    simp [runSpecific, throwingAppliesRule, Except.map] at hcon

/-- C4 as amended: in `execute`, a rule whose `appliesTo` throws is
recorded in `skippedRules` (the pass always returns a normal result and
the other applicable rules are still selected for execution); in
`executeSpecific`, however, a throwing `appliesTo` is not contained: as
soon as the loop reaches that rule, the whole call rejects with the thrown
error. -/
theorem appliesTo_throw_behaviour (context : ValidationContext)
    (options : RuleEngineOptions) (elapsed : Nat → Nat) :
    (∀ (engine : RuleEngine) (r : ValidationRule) (err : Unit),
      r ∈ enabledRulesOf engine → r.appliesTo context = .error err →
      r.id ∈ (execute engine context options elapsed).skippedRules ∧
      (∀ r' : ValidationRule, r' ∈ enabledRulesOf engine →
        r'.appliesTo context = .ok true →
        r' ∈ applicableRulesOf engine context)) ∧
    (∀ (engine : RuleEngine) (ruleIds : List String)
      (r : ValidationRule) (rest : List ValidationRule) (err : Unit),
      specificRules engine ruleIds = r :: rest →
      r.appliesTo context = .error err →
      executeSpecific engine context ruleIds options elapsed =
        Except.error err) := by
  constructor
  · intro engine r err hmem happ
    constructor
    · have h0 : r.id ∈ applicabilitySkipped engine context :=
        applicabilityFilter_mem_error context r err happ _ hmem
      obtain ⟨extra, hextra⟩ := execute_skipped_extends engine context
        options elapsed
      rw [hextra]
      exact List.mem_append.mpr (Or.inl h0)
    · intro r' hmem' happ'
      exact applicabilityFilter_mem_true context r' happ' _ hmem'
  · intro engine ruleIds r rest err hsel happ
    unfold executeSpecific
    rw [hsel]
    simp [runSpecific, happ, Except.map]

/-- C10: a rule whose `validate` resolves to a non-array value (for example
`undefined`) is treated by `executeRule` as having produced zero findings:
`executeRule` returns `ok []` (no exception), bucketing zero findings
leaves `errors` and `warnings` untouched, and in a pass without early exit
the rule's id is still recorded in `executedRules`. -/
theorem executeRule_non_array (rule : ValidationRule)
    (context : ValidationContext)
    (hva : rule.validate context = .ok none) :
    executeRule rule context = .ok [] ∧
    okFindings context rule = [] ∧
    (∀ errors warnings : List ValidationError,
      categorizeErrors [] errors warnings = (errors, warnings)) ∧
    (∀ (engine : RuleEngine) (options : RuleEngineOptions)
      (elapsed : Nat → Nat),
      options.stopOnFirstError = false → options.timeoutMs = none →
      rule ∈ applicableRulesOf engine context →
      rule.id ∈ (execute engine context options elapsed).executedRules) := by
  have hok : executeRule rule context = .ok [] := by
    simp [executeRule, hva]
  refine ⟨hok, by simp [okFindings, hok], fun errors warnings => rfl, ?_⟩
  intro engine options elapsed hstop htime hmem
  have hspec := executeWithTrace_noStop engine context options elapsed
    hstop htime
  show rule.id ∈
    (executeWithTrace engine context options elapsed).1.executedRules
  rw [hspec.1]
  exact List.mem_map.mpr
    ⟨rule, List.mem_filter.mpr ⟨hmem, by simp [execOk, hok]⟩, rfl⟩

theorem jsSetDedupAux_spec :
    ∀ (l seen : List String),
    (jsSetDedupAux seen l).Nodup ∧
    ∀ x ∈ jsSetDedupAux seen l, ¬x ∈ seen := by
  intro l
  induction l with
  | nil => intro seen; simp [jsSetDedupAux]
  | cons x xs ih =>
    intro seen
    simp only [jsSetDedupAux]
    by_cases hc : seen.contains x
    · simp only [hc, if_true]
      exact ih seen
    · simp only [hc, Bool.false_eq_true, if_false]
      have hxseen : ¬x ∈ seen := by
        intro hmem
        exact hc (List.elem_eq_true_of_mem hmem)
      obtain ⟨hnd, hdisj⟩ := ih (x :: seen)
      refine ⟨List.nodup_cons.mpr ⟨?_, hnd⟩, ?_⟩
      · intro hmem
        exact hdisj x hmem (List.mem_cons_self x seen)
      · intro y hy
        rcases List.mem_cons.mp hy with hEq | hTail
        · rw [hEq]; exact hxseen
        · intro hcon
          exact hdisj y hTail (List.mem_cons_of_mem x hcon)

theorem jsSetDedupAux_of_nodup :
    ∀ (l seen : List String), l.Nodup → (∀ x ∈ l, ¬x ∈ seen) →
    jsSetDedupAux seen l = l := by
  intro l
  induction l with
  | nil => intro seen _ _; rfl
  | cons x xs ih =>
    intro seen hnd hdisj
    have hxseen : ¬seen.contains x = true := by
      intro hc
      exact hdisj x (List.mem_cons_self x xs) (List.mem_of_elem_eq_true hc)
    have hfalse : seen.contains x = false := by simpa using hxseen
    simp only [jsSetDedupAux, hfalse, Bool.false_eq_true, if_false]
    congr 1
    refine ih (x :: seen) (List.nodup_cons.mp hnd).2 ?_
    intro y hy
    intro hcon
    rcases List.mem_cons.mp hcon with hEq | hTail
    · rw [hEq] at hy
      exact (List.nodup_cons.mp hnd).1 hy
    · exact hdisj y (List.mem_cons_of_mem x hy) hTail

theorem jsSetDedup_nodup (l : List String) : (jsSetDedup l).Nodup :=
  (jsSetDedupAux_spec l []).1

theorem jsSetDedup_of_nodup (l : List String) (h : l.Nodup) :
    jsSetDedup l = l :=
  jsSetDedupAux_of_nodup l [] h (by simp)

theorem extractFieldValues_nodup (obj : JsValue) (fieldName : String) :
    (extractFieldValues obj fieldName).Nodup :=
  jsSetDedup_nodup _

theorem duplicadosAux_of_nodup :
    ∀ (l processed : List String), (processed ++ l).Nodup →
    DuplicidadeGuiaRule.duplicadosAux l processed = [] := by
  intro l
  induction l with
  | nil => intro processed _; rfl
  | cons n rest ih =>
    intro processed hnd
    have hmid := (List.nodup_middle.mp hnd)
    have hnotmem : ¬n ∈ processed ++ rest :=
      (List.nodup_cons.mp hmid).1
    have hcount : (processed ++ [n]).count n = 1 := by
      rw [List.count_append]
      have h1 : processed.count n = 0 :=
        List.count_eq_zero.mpr (fun hc => hnotmem (List.mem_append_left _ hc))
      simp [h1, List.count_singleton]
    simp only [DuplicidadeGuiaRule.duplicadosAux, hcount]
    rw [if_neg (by omega)]
    refine ih (processed ++ [n]) ?_
    have : (processed ++ n :: rest).Perm ((processed ++ [n]) ++ rest) := by
      simp [List.append_assoc]
    exact this.nodup hnd

/-- C7: the duplicate-guide rule is dead code.  `extractFieldValues`
de-duplicates its output (`[...new Set(values)]`), so the occurrence
counting inside `DuplicidadeGuiaRule.validate` never sees a value twice and
the `duplicados` set stays empty: `validate` returns `[]` on every context.
In particular, on the document with two procedures sharing `numeroGuia`
"G-100" (where the claim expects one `DUPL001` error), the extractor
returns the single value `["G-100"]` and the rule emits nothing. -/
theorem duplicidade_guia_never_fires :
    (∀ context : ValidationContext,
      DuplicidadeGuiaRule.validate context = []) ∧
    DuplicidadeGuiaRule.validate ctxDuplicated = [] ∧
    extractFieldValues ctxDuplicated.parsedXml "numeroguia" = ["G-100"] := by
  have hgen : ∀ context : ValidationContext,
      DuplicidadeGuiaRule.validate context = [] := by
    intro context
    have hnodup :
        (extractFieldValues context.parsedXml "numeroguia").Nodup :=
      extractFieldValues_nodup context.parsedXml "numeroguia"
    have hdaux : DuplicidadeGuiaRule.duplicadosAux
        (extractFieldValues context.parsedXml "numeroguia") [] = [] :=
      duplicadosAux_of_nodup _ [] (by simpa using hnodup)
    have hdup : DuplicidadeGuiaRule.duplicadosOf
        (extractFieldValues context.parsedXml "numeroguia") = [] := by
      unfold DuplicidadeGuiaRule.duplicadosOf
      rw [hdaux]
      rfl
    unfold DuplicidadeGuiaRule.validate
    simp only [hdup, List.map_nil, ite_self]
  exact ⟨hgen, hgen ctxDuplicated, rfl⟩

theorem trimStr_gstr (i : Nat) : trimStr (gstr i) = gstr i := by
  unfold trimStr gstr
  have hdrop : ∀ m : Nat,
      (List.replicate m 'G').dropWhile Char.isWhitespace =
        List.replicate m 'G' := by
    intro m
    cases m with
    | zero => rfl
    | succ m' => simp [List.replicate_succ, List.dropWhile_cons]
  simp [hdrop, List.reverse_replicate]

theorem gstr_ne_empty (i : Nat) : ¬gstr i = "" := by
  intro h
  have := congrArg String.data h
  simp [gstr] at this

theorem gstr_injective : Function.Injective gstr := by
  intro i j h
  have := congrArg String.data h
  simp only [gstr] at this
  have hlen := congrArg List.length this
  simp at hlen
  exact hlen

theorem traverseShared_mkGuia (i : Nat) :
    traverseShared "numeroguia" (mkGuia i) = [gstr i] := by
  have hmatch : strIncludes (cleanKeyStr "numeroGuia") "numeroguia" =
      true := by decide
  simp [mkGuia, traverseShared, traverseSharedFields, hmatch,
    trimStr_gstr, gstr_ne_empty i]

theorem traverseSharedList_guias :
    ∀ l : List Nat,
    traverseSharedList "numeroguia" (l.map mkGuia) = l.map gstr := by
  intro l
  induction l with
  | nil => rfl
  | cons i rest ih =>
    simp [traverseSharedList, traverseShared_mkGuia, ih]

theorem extract_loteDoc (n : Nat) :
    extractFieldValues (loteDoc n) "numeroguia" =
      (List.range n).map gstr := by
  have hkey : strIncludes (cleanKeyStr "lote") "numeroguia" = false := by
    decide
  have hlow : toLowerStr "numeroguia" = "numeroguia" := by decide
  have htrav : traverseShared "numeroguia" (loteDoc n) =
      (List.range n).map gstr := by
    simp [loteDoc, traverseShared, traverseSharedFields, hkey,
      traverseSharedList_guias]
  unfold extractFieldValues
  rw [hlow, htrav]
  exact jsSetDedup_of_nodup _
    (List.Nodup.map gstr_injective (List.nodup_range n))

theorem extract_loteDoc_length (n : Nat) :
    (extractFieldValues (ctxLote n).parsedXml "numeroguia").length = n := by
  show (extractFieldValues (loteDoc n) "numeroguia").length = n
  rw [extract_loteDoc]
  simp

/-- C6 counterexample: on a lot document with exactly 300 distinct
`numeroGuia` values, `LimiteLoteRule.validate` emits one `LOTE002` warning
(300 > 250), not nothing — refuting the claim's "emits no finding when it
contains exactly 300". -/
theorem limite_lote_at_300_emits_warning :
    (LimiteLoteRule.validate (ctxLote 300)).map codeSev =
      [(some "LOTE002", Severity.warning)] ∧
    ¬LimiteLoteRule.validate (ctxLote 300) = [] := by
  have hlen := extract_loteDoc_length 300
  have hmap : (LimiteLoteRule.validate (ctxLote 300)).map codeSev =
      [(some "LOTE002", Severity.warning)] := by
    simp [LimiteLoteRule.validate, hlen, codeSev]
  refine ⟨hmap, ?_⟩
  intro hcon
  rw [hcon] at hmap
  simp at hmap

/-- C6 as amended: for any context, when the extractor finds 301 distinct
guide numbers the batch-limit rule emits exactly one `LOTE001` error; when
it finds exactly 300 it emits exactly one `LOTE002` warning (not nothing,
since 300 > 250); when it finds 280 it emits exactly one `LOTE002`
warning. -/
theorem limite_lote_thresholds (context : ValidationContext) :
    ((extractFieldValues context.parsedXml "numeroguia").length = 301 →
      (LimiteLoteRule.validate context).map codeSev =
        [(some "LOTE001", Severity.error)]) ∧
    ((extractFieldValues context.parsedXml "numeroguia").length = 300 →
      (LimiteLoteRule.validate context).map codeSev =
        [(some "LOTE002", Severity.warning)]) ∧
    ((extractFieldValues context.parsedXml "numeroguia").length = 280 →
      (LimiteLoteRule.validate context).map codeSev =
        [(some "LOTE002", Severity.warning)]) := by
  refine ⟨?_, ?_, ?_⟩ <;> intro hlen <;>
    simp [LimiteLoteRule.validate, hlen, codeSev]

/-- Witness for the amended batch-limit claim, applying it to the concrete
301-, 300- and 280-guide lot documents. -/
theorem limite_lote_thresholds_witness :
    (extractFieldValues (ctxLote 301).parsedXml "numeroguia").length =
      301 ∧
    (LimiteLoteRule.validate (ctxLote 301)).map codeSev =
      [(some "LOTE001", Severity.error)] ∧
    (extractFieldValues (ctxLote 300).parsedXml "numeroguia").length =
      300 ∧
    (LimiteLoteRule.validate (ctxLote 300)).map codeSev =
      [(some "LOTE002", Severity.warning)] ∧
    (extractFieldValues (ctxLote 280).parsedXml "numeroguia").length =
      280 ∧
    (LimiteLoteRule.validate (ctxLote 280)).map codeSev =
      [(some "LOTE002", Severity.warning)] :=
  ⟨extract_loteDoc_length 301,
   (limite_lote_thresholds (ctxLote 301)).1 (extract_loteDoc_length 301),
   extract_loteDoc_length 300,
   (limite_lote_thresholds (ctxLote 300)).2.1 (extract_loteDoc_length 300),
   extract_loteDoc_length 280,
   (limite_lote_thresholds (ctxLote 280)).2.2 (extract_loteDoc_length 280)⟩

/-- C8: the business-rules extractor stringifies numeric values under
matched identifier keys and zero-left-pads them — to 11 digits when the
cleaned key contains "cpf" (so the 10-digit number 1234567890 under key
`cpf` yields "01234567890"), to 14 digits for "cnpj" and to 15 for "cns". -/
theorem extract_numeric_zero_padding :
    BusinessRules.extractFieldValues
      (JsValue.obj [("cpf", JsValue.num 1234567890)]) "cpf" =
      ["01234567890"] ∧
    BusinessRules.extractFieldValues
      (JsValue.obj [("cnpj", JsValue.num 1234)]) "cnpj" =
      ["00000000001234"] ∧
    BusinessRules.extractFieldValues
      (JsValue.obj [("cns", JsValue.num 987654321)]) "cns" =
      ["000000987654321"] ∧
    BusinessRules.padNum "cpf" 1234567890 = "01234567890" :=
  ⟨rfl, rfl, rfl, rfl⟩

/-- C9: the extractor strips the namespace qualifier (text before a colon)
from each key and lower-cases it, then matches by substring containment of
the lower-cased search term: the key `ans:numeroGuia` cleans to
`numeroguia`, the node `{ "ans:numeroGuia": "123" }` is found when
searching "numeroguia" (yielding "123"), and a strictly longer key
containing the term as a proper substring is found as well. -/
theorem extract_namespace_stripping :
    cleanKeyStr "ans:numeroGuia" = "numeroguia" ∧
    strIncludes (cleanKeyStr "ans:numeroGuia") "numeroguia" = true ∧
    BusinessRules.extractFieldValues
      (JsValue.obj [("ans:numeroGuia", JsValue.str "123")]) "numeroguia" =
      ["123"] ∧
    BusinessRules.extractFieldValues
      (JsValue.obj [("ans:numeroGuiaPrincipal", JsValue.str "456")])
      "numeroguia" = ["456"] :=
  ⟨rfl, rfl, rfl, rfl⟩

theorem engineW2_wf : engineW2.WF := by
  constructor
  · decide
  · intro p hp
    rcases List.mem_cons.mp hp with h | h
    · rw [h]; rfl
    · rcases List.mem_cons.mp h with h2 | h2
      · rw [h2]; rfl
      · simp at h2

theorem engineW2_applicable :
    applicableRulesOf engineW2 ctxTrivial = [ruleW2ok, ruleW2throw] := by
  unfold applicableRulesOf enabledRulesOf getAllRules
  rw [List.mergeSort_of_sorted]
  · rfl
  · decide

theorem engineW2_trace :
    (executeWithTrace engineW2 ctxTrivial RuleEngineOptions.empty
      (fun _ => 0)).2.1 = ["w2-ok", "w2-throw"] := by
  rw [executeWithTrace_seq_eq engineW2 ctxTrivial RuleEngineOptions.empty
    (fun _ => 0) rfl]
  have hskip : applicabilitySkipped engineW2 ctxTrivial = [] := by
    unfold applicabilitySkipped enabledRulesOf getAllRules
    rw [List.mergeSort_of_sorted]
    · rfl
    · decide
  rw [engineW2_applicable, hskip]
  rfl

/-- Witness for the fault-isolation theorem: on the two-rule engine, the
throwing rule is skipped (and only skipped) while the settling rule
executes and its error finding reaches the errors bucket. -/
theorem execute_fault_isolation_witness :
    "w2-throw" ∈ (execute engineW2 ctxTrivial RuleEngineOptions.empty
      (fun _ => 0)).skippedRules ∧
    ¬"w2-throw" ∈ (execute engineW2 ctxTrivial RuleEngineOptions.empty
      (fun _ => 0)).executedRules ∧
    "w2-ok" ∈ (execute engineW2 ctxTrivial RuleEngineOptions.empty
      (fun _ => 0)).executedRules ∧
    errFindingW ∈ (execute engineW2 ctxTrivial RuleEngineOptions.empty
      (fun _ => 0)).errors := by
  have h := execute_fault_isolation engineW2 ctxTrivial
    RuleEngineOptions.empty (fun _ => 0) engineW2_wf rfl rfl
    ruleW2throw (by rw [engineW2_applicable]; simp) () rfl
    ruleW2ok (by rw [engineW2_applicable]; simp) [errFindingW] rfl
  exact ⟨h.1, h.2.1, h.2.2.1,
    h.2.2.2.1 errFindingW (by simp) rfl⟩

/-- Witness for the priority-ordering theorem: on the two-rule engine the
priority-10 rule's id precedes the priority-20 rule's id in the invocation
trace. -/
theorem execute_priority_order_witness :
    ["w2-ok", "w2-throw"].Sublist
      (executeWithTrace engineW2 ctxTrivial RuleEngineOptions.empty
        (fun _ => 0)).2.1 := by
  have h := execute_priority_order engineW2 ctxTrivial
    RuleEngineOptions.empty (fun _ => 0) engineW2_wf rfl
    ruleW2ok ruleW2throw
    (by rw [engineW2_applicable]; simp)
    (by rw [engineW2_applicable]; simp)
    (by decide)
    (by rw [engineW2_trace]; simp [ruleW2throw])
  simpa [ruleW2ok, ruleW2throw] using h

theorem engineW5_wf : engineW5.WF := by
  constructor
  · decide
  · intro p hp
    rcases List.mem_cons.mp hp with h | h
    · rw [h]; rfl
    · rcases List.mem_cons.mp h with h2 | h2
      · rw [h2]; rfl
      · simp at h2

theorem engineW5_applicable :
    applicableRulesOf engineW5 ctxTrivial = [ruleW5a, ruleW5b] := by
  unfold applicableRulesOf enabledRulesOf getAllRules
  rw [List.mergeSort_of_sorted]
  · rfl
  · decide

theorem engineW5_skipped :
    applicabilitySkipped engineW5 ctxTrivial = [] := by
  unfold applicabilitySkipped enabledRulesOf getAllRules
  rw [List.mergeSort_of_sorted]
  · rfl
  · decide

/-- Witness for the stop-on-first-error theorem: with two error-yielding
rules at priorities 10 and 20 and `stopOnFirstError` set, only the
priority-10 rule runs, its error is the result's only error, and the
priority-20 rule appears in no list of the result. -/
theorem execute_stop_on_first_error_witness :
    (execute engineW5 ctxTrivial
      { stopOnFirstError := true, timeoutMs := none, parallel := false }
      (fun _ => 0)).executedRules = ["w5-a"] ∧
    (execute engineW5 ctxTrivial
      { stopOnFirstError := true, timeoutMs := none, parallel := false }
      (fun _ => 0)).skippedRules = [] ∧
    (execute engineW5 ctxTrivial
      { stopOnFirstError := true, timeoutMs := none, parallel := false }
      (fun _ => 0)).errors = [errFindingW] ∧
    ¬"w5-b" ∈ (execute engineW5 ctxTrivial
      { stopOnFirstError := true, timeoutMs := none, parallel := false }
      (fun _ => 0)).executedRules ∧
    ¬"w5-b" ∈ (execute engineW5 ctxTrivial
      { stopOnFirstError := true, timeoutMs := none, parallel := false }
      (fun _ => 0)).skippedRules := by
  have h := execute_stop_on_first_error engineW5 ctxTrivial
    { stopOnFirstError := true, timeoutMs := none, parallel := false }
    (fun _ => 0) engineW5_wf rfl rfl rfl
    [] [ruleW5b] ruleW5a
    (by rw [engineW5_applicable]; rfl)
    (by simp)
    rfl
    (by decide)
  have hb := h.2.2.2.2 ruleW5b (by simp)
  refine ⟨?_, ?_, ?_, ?_, ?_⟩
  · rw [h.2.1]; rfl
  · rw [h.2.2.1, engineW5_skipped]; rfl
  · rw [h.2.2.2.1]; rfl
  · simpa [ruleW5b] using hb.1
  · simpa [ruleW5b] using hb.2.1

theorem engineC4_enabled :
    enabledRulesOf engineC4 = [throwingAppliesRule] := by
  unfold enabledRulesOf getAllRules
  rw [List.mergeSort_of_sorted]
  · rfl
  · decide

theorem engineC4_specific :
    specificRules engineC4 ["c4-throw"] = [throwingAppliesRule] := by
  unfold specificRules getRule engineC4
  rw [List.mergeSort_of_sorted]
  · rfl
  · simp [throwingAppliesRule]

/-- Witness for the amended applicability-fault theorem, applied to the
one-rule engine whose rule's `appliesTo` throws: `execute` records the rule
as skipped, while `executeSpecific` rejects. -/
theorem appliesTo_throw_behaviour_witness :
    "c4-throw" ∈ (execute engineC4 ctxTrivial RuleEngineOptions.empty
      (fun _ => 0)).skippedRules ∧
    executeSpecific engineC4 ctxTrivial ["c4-throw"]
      RuleEngineOptions.empty (fun _ => 0) = Except.error () := by
  have h := appliesTo_throw_behaviour ctxTrivial RuleEngineOptions.empty
    (fun _ => 0)
  constructor
  · exact (h.1 engineC4 throwingAppliesRule ()
      (by rw [engineC4_enabled]; simp) rfl).1
  · exact h.2 engineC4 ["c4-throw"] throwingAppliesRule [] ()
      engineC4_specific rfl

theorem engineW10_applicable :
    applicableRulesOf engineW10 ctxTrivial = [ruleW10] := by
  unfold applicableRulesOf enabledRulesOf getAllRules
  rw [List.mergeSort_of_sorted]
  · rfl
  · decide

/-- Witness for the non-array-validate theorem: on the one-rule engine the
rule is treated as producing zero findings and still counts as executed. -/
theorem executeRule_non_array_witness :
    executeRule ruleW10 ctxTrivial = .ok [] ∧
    "w10" ∈ (execute engineW10 ctxTrivial RuleEngineOptions.empty
      (fun _ => 0)).executedRules := by
  have h := executeRule_non_array ruleW10 ctxTrivial rfl
  refine ⟨h.1, ?_⟩
  have := h.2.2.2 engineW10 RuleEngineOptions.empty (fun _ => 0) rfl rfl
    (by rw [engineW10_applicable]; simp)
  simpa [ruleW10] using this
